import Mathlib

/-!
Verification of the UVM assembler (`src/assembler.py`).

The development shallowly embeds the translation pipeline of the Python
class `UVMAssembler`:

* `parse_line`     — `UVMAssembler.parse_line`
* `parse_source`   — `UVMAssembler.parse_source` (with 1-based line numbers)
* `encodeInstr`    — the per-instruction body of `UVMAssembler.assemble`
* `assemble`       — `UVMAssembler.assemble`
* `parse_number`   — `UVMAssembler._parse_number`
* `pyInt`          — Python's `int(s, base)` for bases 10 and 16, over the
                     ASCII repertoire exercised by the assembler

Python strings are modelled as `List Char`; Python dictionaries built by the
assembler (`{'A': .., 'B': .., ...}`) are modelled as ordered association
lists `List (String × Int)` (Python dicts preserve insertion order).
Exceptions are modelled with `Except AsmError`; each `AsmError` constructor
carries exactly the variable data interpolated into the corresponding Python
exception message.
-/

namespace UVM

/-- The whitespace characters of Python's `str.strip` / `str.split()`
(ASCII repertoire: `' \t\n\r\x0b\x0c'`). -/
def isSpace (c : Char) : Bool :=
  c == ' ' || c == '\t' || c == '\n' || c == '\r' || c == '\x0b' || c == '\x0c'

/-- Python `str.lstrip()`. -/
def lstrip (cs : List Char) : List Char := cs.dropWhile isSpace

/-- Python `str.rstrip()`. -/
def rstrip (cs : List Char) : List Char := (cs.reverse.dropWhile isSpace).reverse

/-- Python `str.strip()`. -/
def stripChars (cs : List Char) : List Char := rstrip (lstrip cs)

/-- Python `str.split(sep)` for a one-character separator: splits at every
occurrence of `sep`, keeping empty pieces. -/
def splitOnAux (sep : Char) : List Char → List Char → List (List Char)
  | [], acc => [acc.reverse]
  | c :: rest, acc =>
    if c == sep then acc.reverse :: splitOnAux sep rest []
    else splitOnAux sep rest (c :: acc)

def splitOn (sep : Char) (cs : List Char) : List (List Char) := splitOnAux sep cs []

/-- Python `str.split()` (no argument): splits on runs of whitespace,
producing no empty pieces. -/
def splitWsAux : List Char → List Char → List (List Char)
  | [], acc => if acc.isEmpty then [] else [acc.reverse]
  | c :: rest, acc =>
    if isSpace c then
      if acc.isEmpty then splitWsAux rest []
      else acc.reverse :: splitWsAux rest []
    else splitWsAux rest (c :: acc)

def splitWs (cs : List Char) : List (List Char) := splitWsAux cs []

/-- Value of an ASCII digit character in base `b`
(used by the model of Python `int(s, b)`). -/
def digitVal (b : Nat) (c : Char) : Option Nat :=
  let v : Option Nat :=
    if '0' ≤ c ∧ c ≤ '9' then some (c.toNat - '0'.toNat)
    else if 'a' ≤ c ∧ c ≤ 'f' then some (c.toNat - 'a'.toNat + 10)
    else if 'A' ≤ c ∧ c ≤ 'F' then some (c.toNat - 'A'.toNat + 10)
    else none
  match v with
  | some d => if d < b then some d else none
  | none => none

/-- Digit run with single underscores allowed between digits
(continuation of a digit string already begun; Python PEP 515). -/
def pyDigitsAux (b : Nat) (acc : Nat) : List Char → Option Nat
  | [] => some acc
  | '_' :: c :: rest =>
    match digitVal b c with
    | some d => pyDigitsAux b (acc * b + d) rest
    | none => none
  | ['_'] => none
  | c :: rest =>
    match digitVal b c with
    | some d => pyDigitsAux b (acc * b + d) rest
    | none => none

/-- `digit (["_"] digit)*` — a digit string with no radix marker: the first
character must be a digit. -/
def pyDigits (b : Nat) : List Char → Option Nat
  | [] => none
  | c :: rest =>
    match digitVal b c with
    | some d => pyDigitsAux b d rest
    | none => none

/-- `(["_"] digit)+` — the digit string following a `0x`/`0X` radix marker
(an underscore may directly follow the marker). -/
def pyDigitsMarked (b : Nat) : List Char → Option Nat
  | [] => none
  | cs => pyDigitsAux b 0 cs

/-- Unsigned part of Python `int(s, b)`: for base 16 an optional `0x`/`0X`
marker is itself accepted by `int`. -/
def pyIntMag (b : Nat) (cs : List Char) : Option Nat :=
  if b = 16 then
    match cs with
    | '0' :: 'x' :: rest => pyDigitsMarked 16 rest
    | '0' :: 'X' :: rest => pyDigitsMarked 16 rest
    | _ => pyDigits 16 cs
  else pyDigits b cs

/-- Python `int(s, b)` for `b ∈ {10, 16}` over the ASCII repertoire:
surrounding whitespace is stripped, then an optional single sign, then the
digit string. `none` models `ValueError`. -/
def pyInt (b : Nat) (cs : List Char) : Option Int :=
  match stripChars cs with
  | '+' :: rest => (pyIntMag b rest).map (fun n => (n : Int))
  | '-' :: rest => (pyIntMag b rest).map (fun n => -(n : Int))
  | t => (pyIntMag b t).map (fun n => (n : Int))

/-- The errors raised by the assembler.  Each constructor carries exactly
the variable data interpolated into the corresponding Python message:

* `synError n l`       — `SyntaxError` from `parse_source` (line number, raw line);
* `unknownMnemonic m`  — `ValueError "Неизвестная мнемоника: {m}"`;
* `arityMismatch m`    — the per-branch constant `ValueError` message
  (`"{m} требует {k} аргумента..."`, a string fully determined by `m`);
* `invalidNumber t`    — `ValueError` from `int`, naming the offending text
  (for a `0x`-prefixed argument, the text after the prefix, as passed to `int`). -/
inductive AsmError where
  | synError (lineNum : Nat) (line : List Char)
  | unknownMnemonic (mnemonic : String)
  | arityMismatch (mnemonic : String)
  | invalidNumber (text : String)
deriving DecidableEq

/-- Result of `UVMAssembler.parse_line`: `skip` models `return None`,
`instr` the `(mnemonic, args)` tuple, and `crash` an exception escaping
the line splitter (caught in `parse_source` as a `SyntaxError`; in the
Python code the only candidate is the `parts[0]` index error). -/
inductive LineResult where
  | skip
  | instr (mnemonic : String) (args : List String)
  | crash
deriving DecidableEq

/-- `if ';' in line: line = line.split(';')[0].strip()` -/
def removeComment (l : List Char) : List Char :=
  if l.contains ';' then stripChars (l.takeWhile (fun ch => ch != ';')) else l

/-- The instruction-building tail of `parse_line`, applied to the stripped,
non-empty, non-comment line: strip a trailing comment, split on whitespace,
upper-case the first token, and split the rest on commas into trimmed
argument strings.  `parts = []` (impossible, proven below) would make
`parts[0]` raise, modelled by `crash`. -/
def mkInstr (l : List Char) : LineResult :=
  match splitWs (removeComment l) with
  | [] => .crash
  | p :: ps =>
    let mnemonic := String.mk (p.map Char.toUpper)
    let args : List String :=
      if ps.isEmpty then []
      else (splitOn ',' (List.intercalate [' '] ps)).map
        (fun a => String.mk (stripChars a))
    .instr mnemonic args

/-- `UVMAssembler.parse_line`. -/
def parse_line (line : List Char) : LineResult :=
  match stripChars line with
  | [] => .skip
  | c :: rest => if c == ';' then .skip else mkInstr (c :: rest)

/-- `UVMAssembler.parse_source`, line by line with 1-based numbering. -/
def parse_sourceAux : Nat → List (List Char) → Except AsmError (List (String × List String))
  | _, [] => .ok []
  | lineNum, line :: rest =>
    match parse_line line with
    | .crash => .error (.synError lineNum line)
    | .skip => parse_sourceAux (lineNum + 1) rest
    | .instr m args => do
      let cmds ← parse_sourceAux (lineNum + 1) rest
      pure ((m, args) :: cmds)

/-- `UVMAssembler.parse_source`: split the source on `'\n'` and parse each
line, collecting the parsed instructions in order. -/
def parse_source (src : List Char) : Except AsmError (List (String × List String)) :=
  parse_sourceAux 1 (splitOn '\n' src)

/-- `self.mnemonics`, built once in `UVMAssembler.__init__` and never
written afterwards. -/
def mnemonics : List (String × Int) :=
  [("LOAD_CONST", 20), ("STORE", 12), ("BINARY_OP", 19)]

/-- An IR record: the ordered field dictionary `{'A': .., 'B': .., ...}`. -/
abbrev IRRec := List (String × Int)

/-- `UVMAssembler._parse_number`. -/
def parse_number (s : String) : Except AsmError Int :=
  let t := stripChars s.data
  if t.take 2 = ['0', 'x'] then
    match pyInt 16 (t.drop 2) with
    | some v => .ok v
    | none => .error (.invalidNumber (String.mk (t.drop 2)))
  else
    match pyInt 10 t with
    | some v => .ok v
    | none => .error (.invalidNumber (String.mk t))

/-- The per-instruction body of the loop in `UVMAssembler.assemble`:
membership test in the mnemonic table, then the `LOAD_CONST` / `STORE` /
`BINARY_OP` branches with their arity checks and left-to-right argument
decoding.  The final catch-all is unreachable: the table's keys are exactly
the three branch labels. -/
def encodeInstr (mnemonic : String) (args : List String) : Except AsmError IRRec :=
  match mnemonics.lookup mnemonic with
  | none => .error (.unknownMnemonic mnemonic)
  | some op =>
    if mnemonic = "LOAD_CONST" then
      match args with
      | [a0, a1] => do
        let b ← parse_number a0
        let c ← parse_number a1
        pure [("A", op), ("B", b), ("C", c)]
      | _ => .error (.arityMismatch mnemonic)
    else if mnemonic = "STORE" then
      match args with
      | [a0, a1] => do
        let b ← parse_number a0
        let c ← parse_number a1
        pure [("A", op), ("B", b), ("C", c)]
      | _ => .error (.arityMismatch mnemonic)
    else if mnemonic = "BINARY_OP" then
      match args with
      | [a0, a1, a2, a3] => do
        let b ← parse_number a0
        let c ← parse_number a1
        let d ← parse_number a2
        let e ← parse_number a3
        pure [("A", op), ("B", b), ("C", c), ("D", d), ("E", e)]
      | _ => .error (.arityMismatch mnemonic)
    else
      .error (.unknownMnemonic mnemonic)

/-- The accumulation loop of `UVMAssembler.assemble` over the parsed
instruction list (fail-fast: the first exception aborts the whole loop). -/
def encodeAll : List (String × List String) → Except AsmError (List IRRec)
  | [] => .ok []
  | (m, args) :: rest => do
    let r ← encodeInstr m args
    let rs ← encodeAll rest
    pure (r :: rs)

/-- `UVMAssembler.assemble` — the `translate` operation of the spec. -/
def assemble (src : String) : Except AsmError (List IRRec) := do
  let cmds ← parse_source src.data
  encodeAll cmds

/-- The fixed arity of each mnemonic — the constant each branch of
`UVMAssembler.assemble` compares `len(args)` against. -/
def arities : List (String × Nat) :=
  [("LOAD_CONST", 2), ("STORE", 2), ("BINARY_OP", 4)]

/-- Left-to-right decoding of an argument list, failing on the first
argument `int` rejects — the evaluation order of the record displays
`{'A': .., 'B': self._parse_number(args[0]), ...}` in `assemble`. -/
def decodeArgs : List String → Except AsmError (List Int)
  | [] => .ok []
  | a :: rest => do
    let v ← parse_number a
    let vs ← decodeArgs rest
    pure (v :: vs)

/-! ### Facts about stripping and splitting -/

theorem rstrip_decomp (x : List Char) :
    x = rstrip x ++ (x.reverse.takeWhile isSpace).reverse ∧
      ∀ c ∈ (x.reverse.takeWhile isSpace).reverse, isSpace c = true := by
  constructor
  · have h := List.takeWhile_append_dropWhile (p := isSpace) (l := x.reverse)
    calc x = x.reverse.reverse := (List.reverse_reverse x).symm
      _ = (x.reverse.takeWhile isSpace ++ x.reverse.dropWhile isSpace).reverse := by rw [h]
      _ = rstrip x ++ (x.reverse.takeWhile isSpace).reverse := by
          rw [List.reverse_append]; rfl
  · intro c hc
    rw [List.mem_reverse] at hc
    exact List.mem_takeWhile_imp hc

theorem rstrip_eq_nil_all_space {x : List Char} (h : rstrip x = []) :
    ∀ c ∈ x, isSpace c = true := by
  obtain ⟨hx, hs⟩ := rstrip_decomp x
  rw [h, List.nil_append] at hx
  intro c hc
  exact hs c (hx ▸ hc)

theorem rstrip_cons_decomp {x : List Char} {c : Char} {t : List Char}
    (h : rstrip x = c :: t) :
    ∃ s, x = c :: (t ++ s) ∧ ∀ d ∈ s, isSpace d = true := by
  obtain ⟨hx, hs⟩ := rstrip_decomp x
  rw [h] at hx
  exact ⟨_, by simpa using hx, hs⟩

theorem lstrip_head_not_space {x : List Char} {c : Char} {t : List Char}
    (h : lstrip x = c :: t) : isSpace c = false := by
  have h2 := List.head?_dropWhile_not isSpace x
  rw [show x.dropWhile isSpace = c :: t from h] at h2
  simpa using h2

theorem stripChars_head_not_space {x : List Char} {c : Char} {t : List Char}
    (h : stripChars x = c :: t) : isSpace c = false := by
  obtain ⟨s, hx, _⟩ := rstrip_cons_decomp (x := lstrip x) h
  exact lstrip_head_not_space hx

theorem stripChars_decomp (x : List Char) :
    ∃ s1 s2, x = s1 ++ stripChars x ++ s2 ∧
      (∀ c ∈ s1, isSpace c = true) ∧ ∀ c ∈ s2, isSpace c = true := by
  obtain ⟨hy, hs2⟩ := rstrip_decomp (lstrip x)
  refine ⟨x.takeWhile isSpace, (lstrip x).reverse.takeWhile isSpace |>.reverse, ?_, ?_, hs2⟩
  · conv_lhs => rw [← List.takeWhile_append_dropWhile (p := isSpace) (l := x)]
    rw [List.append_assoc]
    exact congrArg (fun y => List.takeWhile isSpace x ++ y) hy
  · intro c hc
    exact List.mem_takeWhile_imp hc

theorem stripChars_eq_nil_all_space {x : List Char} (h : stripChars x = []) :
    ∀ c ∈ x, isSpace c = true := by
  obtain ⟨s1, s2, hx, h1, h2⟩ := stripChars_decomp x
  rw [h, List.append_nil] at hx
  intro c hc
  rw [hx] at hc
  rcases List.mem_append.mp hc with hc1 | hc2
  · exact h1 c hc1
  · exact h2 c hc2

theorem mem_stripChars_iff {x : List Char} {c : Char} (hc : isSpace c = false) :
    c ∈ stripChars x ↔ c ∈ x := by
  obtain ⟨s1, s2, hx, h1, h2⟩ := stripChars_decomp x
  constructor
  · intro h
    rw [hx]
    simp [h]
  · intro h
    rw [hx] at h
    rcases List.mem_append.mp h with h' | h'
    · rcases List.mem_append.mp h' with h'' | h''
      · rw [h1 c h''] at hc; cases hc
      · exact h''
    · rw [h2 c h'] at hc; cases hc

theorem stripChars_space_prepend {a b : List Char} (h : ∀ c ∈ a, isSpace c = true) :
    stripChars (a ++ b) = stripChars b := by
  show rstrip (lstrip (a ++ b)) = rstrip (lstrip b)
  unfold lstrip
  rw [List.dropWhile_append_of_pos h]

theorem rstrip_append_space {x s : List Char} (h : ∀ c ∈ s, isSpace c = true) :
    rstrip (x ++ s) = rstrip x := by
  unfold rstrip
  rw [List.reverse_append,
    List.dropWhile_append_of_pos (fun c hc => h c (List.mem_reverse.mp hc))]

theorem lstrip_append_of_ne_nil {a : List Char} (b : List Char) (h : lstrip a ≠ []) :
    lstrip (a ++ b) = lstrip a ++ b := by
  unfold lstrip at h ⊢
  rw [List.dropWhile_append]
  have : (a.dropWhile isSpace).isEmpty = false := by
    simpa [List.isEmpty_iff] using h
  rw [this]
  simp

theorem rstrip_append_keep {a b : List Char} (hb : b.reverse.dropWhile isSpace = b.reverse)
    (hne : b ≠ []) : rstrip (a ++ b) = a ++ b := by
  unfold rstrip
  rw [List.reverse_append, List.dropWhile_append, hb]
  have hkeep : (b.reverse.dropWhile isSpace).isEmpty = false := by
    rw [hb]
    simpa [List.isEmpty_iff] using hne
  rw [hb] at hkeep
  rw [hkeep]
  simp

theorem rstrip_idem (x : List Char) : rstrip (rstrip x) = rstrip x := by
  unfold rstrip
  rw [List.reverse_reverse, List.dropWhile_idempotent]

theorem stripChars_idem (x : List Char) : stripChars (stripChars x) = stripChars x := by
  cases h : stripChars x with
  | nil => rfl
  | cons c t =>
    have hc := stripChars_head_not_space h
    show rstrip (lstrip (c :: t)) = c :: t
    have h1 : lstrip (c :: t) = c :: t := by
      unfold lstrip
      rw [List.dropWhile_cons_of_neg (by simp [hc])]
    rw [h1, show (c :: t) = rstrip (lstrip x) from h.symm, rstrip_idem]

/-! ### Totality of the line parser -/

theorem splitWsAux_ne_nil (xs : List Char) :
    ∀ acc, acc.isEmpty = false → splitWsAux xs acc ≠ [] := by
  induction xs with
  | nil =>
    intro acc h
    simp [splitWsAux, h]
  | cons c rest ih =>
    intro acc h
    simp only [splitWsAux]
    by_cases hs : isSpace c
    · simp [hs, h]
    · simp only [hs, if_false]
      exact ih (c :: acc) (by simp)

theorem splitWs_cons_ne_nil {c : Char} {t : List Char} (hc : isSpace c = false) :
    splitWs (c :: t) ≠ [] := by
  unfold splitWs
  simp only [splitWsAux, hc, if_false]
  exact splitWsAux_ne_nil t [c] (by simp)

theorem stripChars_cons_of_head {c : Char} {t : List Char} (hc : isSpace c = false) :
    ∃ t2, stripChars (c :: t) = c :: t2 := by
  have h1 : lstrip (c :: t) = c :: t := by
    unfold lstrip
    rw [List.dropWhile_cons_of_neg (by simp [hc])]
  show ∃ t2, rstrip (lstrip (c :: t)) = c :: t2
  rw [h1]
  cases h2 : rstrip (c :: t) with
  | nil =>
    have := rstrip_eq_nil_all_space h2 c (by simp)
    rw [hc] at this
    cases this
  | cons c' t2 =>
    obtain ⟨s, hx, _⟩ := rstrip_cons_decomp h2
    obtain ⟨rfl, -⟩ := List.cons.inj hx
    exact ⟨t2, rfl⟩

theorem removeComment_cons {c : Char} {t : List Char} (hc : isSpace c = false)
    (hsemi : c ≠ ';') : ∃ t2, removeComment (c :: t) = c :: t2 := by
  unfold removeComment
  by_cases h : (c :: t).contains ';'
  · rw [if_pos h]
    have hq : (c != ';') = true := by simp [hsemi]
    rw [List.takeWhile_cons_of_pos (p := fun ch => ch != ';') hq]
    exact stripChars_cons_of_head hc
  · rw [if_neg h]
    exact ⟨t, rfl⟩

theorem mkInstr_ne_crash {c : Char} {t : List Char} (hc : isSpace c = false)
    (hsemi : c ≠ ';') : mkInstr (c :: t) ≠ .crash := by
  obtain ⟨t2, h2⟩ := removeComment_cons hc hsemi
  unfold mkInstr
  rw [h2]
  cases h3 : splitWs (c :: t2) with
  | nil => exact absurd h3 (splitWs_cons_ne_nil hc)
  | cons p ps => simp

theorem parse_line_ne_crash (line : List Char) : parse_line line ≠ .crash := by
  unfold parse_line
  cases h : stripChars line with
  | nil => simp
  | cons c rest =>
    have hc := stripChars_head_not_space h
    by_cases hs : c = ';'
    · simp [hs]
    · have hb : (c == ';') = false := by simp [hs]
      show (if (c == ';') = true then LineResult.skip else mkInstr (c :: rest)) ≠ .crash
      rw [hb]
      simp only [Bool.false_eq_true, if_false]
      exact mkInstr_ne_crash hc hs

theorem parse_sourceAux_ok (ls : List (List Char)) :
    ∀ k, ∃ cmds, parse_sourceAux k ls = .ok cmds := by
  induction ls with
  | nil => exact fun k => ⟨[], rfl⟩
  | cons line rest ih =>
    intro k
    cases h : parse_line line with
    | crash => exact absurd h (parse_line_ne_crash line)
    | skip =>
      obtain ⟨cmds, hc⟩ := ih (k + 1)
      exact ⟨cmds, by simp [parse_sourceAux, h, hc]⟩
    | instr m args =>
      obtain ⟨cmds, hc⟩ := ih (k + 1)
      exact ⟨(m, args) :: cmds, by simp [parse_sourceAux, h, hc]⟩

theorem parse_source_ok (src : List Char) : ∃ cmds, parse_source src = .ok cmds :=
  parse_sourceAux_ok _ 1

/-! ### The shape of `encodeInstr` -/

theorem mnemonics_lookup_cases {m : String} {op : Int} (h : mnemonics.lookup m = some op) :
    (m = "LOAD_CONST" ∧ op = 20) ∨ (m = "STORE" ∧ op = 12) ∨ (m = "BINARY_OP" ∧ op = 19) := by
  by_cases h1 : m = "LOAD_CONST"
  · subst h1
    rw [show mnemonics.lookup "LOAD_CONST" = some 20 from rfl] at h
    exact Or.inl ⟨rfl, (Option.some.inj h).symm⟩
  by_cases h2 : m = "STORE"
  · subst h2
    rw [show mnemonics.lookup "STORE" = some 12 from rfl] at h
    exact Or.inr (Or.inl ⟨rfl, (Option.some.inj h).symm⟩)
  by_cases h3 : m = "BINARY_OP"
  · subst h3
    rw [show mnemonics.lookup "BINARY_OP" = some 19 from rfl] at h
    exact Or.inr (Or.inr ⟨rfl, (Option.some.inj h).symm⟩)
  · have b1 : (m == "LOAD_CONST") = false := beq_false_of_ne h1
    have b2 : (m == "STORE") = false := beq_false_of_ne h2
    have b3 : (m == "BINARY_OP") = false := beq_false_of_ne h3
    simp only [mnemonics, List.lookup_cons, b1, b2, b3, List.lookup_nil] at h
    exact Option.noConfusion h

theorem encodeInstr_of_none {m : String} (args : List String)
    (h : mnemonics.lookup m = none) :
    encodeInstr m args = .error (.unknownMnemonic m) := by
  unfold encodeInstr
  rw [h]

theorem encodeInstr_arity_err {m : String} {op : Int} {k : Nat} {args : List String}
    (h : mnemonics.lookup m = some op) (hk : arities.lookup m = some k)
    (hlen : args.length ≠ k) : encodeInstr m args = .error (.arityMismatch m) := by
  rcases mnemonics_lookup_cases h with ⟨rfl, rfl⟩ | ⟨rfl, rfl⟩ | ⟨rfl, rfl⟩
  · rw [show arities.lookup "LOAD_CONST" = some 2 from rfl] at hk
    injection hk with hk2
    subst hk2
    rcases args with _ | ⟨a0, _ | ⟨a1, _ | ⟨a2, rest⟩⟩⟩
    · rfl
    · rfl
    · exact absurd rfl hlen
    · rfl
  · rw [show arities.lookup "STORE" = some 2 from rfl] at hk
    injection hk with hk2
    subst hk2
    rcases args with _ | ⟨a0, _ | ⟨a1, _ | ⟨a2, rest⟩⟩⟩
    · rfl
    · rfl
    · exact absurd rfl hlen
    · rfl
  · rw [show arities.lookup "BINARY_OP" = some 4 from rfl] at hk
    injection hk with hk2
    subst hk2
    rcases args with _ | ⟨a0, _ | ⟨a1, _ | ⟨a2, _ | ⟨a3, _ | ⟨a4, rest⟩⟩⟩⟩⟩
    · rfl
    · rfl
    · rfl
    · rfl
    · exact absurd rfl hlen
    · rfl

theorem encodeInstr_decode {m : String} {op : Int} {args : List String}
    (h : mnemonics.lookup m = some op) (hk : arities.lookup m = some args.length) :
    encodeInstr m args =
      (decodeArgs args).map (fun vs => ("A", op) :: List.zip ["B", "C", "D", "E"] vs) := by
  rcases mnemonics_lookup_cases h with ⟨rfl, rfl⟩ | ⟨rfl, rfl⟩ | ⟨rfl, rfl⟩
  · rw [show arities.lookup "LOAD_CONST" = some 2 from rfl] at hk
    injection hk with hk2
    rcases args with _ | ⟨a0, _ | ⟨a1, _ | ⟨a2, rest⟩⟩⟩
    · simp at hk2
    · simp at hk2
    · cases hb : parse_number a0 with
      | error e => simp [encodeInstr, decodeArgs, h, pure, Except.pure, hb, Except.map, Except.bind, Bind.bind]
      | ok b =>
        cases hc : parse_number a1 with
        | error e =>
          simp [encodeInstr, decodeArgs, h, pure, Except.pure, hb, hc, Except.map, Except.bind, Bind.bind]
        | ok c => simp [encodeInstr, decodeArgs, h, pure, Except.pure, hb, hc, Except.map, Except.bind, Bind.bind]
    · simp only [List.length_cons] at hk2
      omega
  · rw [show arities.lookup "STORE" = some 2 from rfl] at hk
    injection hk with hk2
    rcases args with _ | ⟨a0, _ | ⟨a1, _ | ⟨a2, rest⟩⟩⟩
    · simp at hk2
    · simp at hk2
    · cases hb : parse_number a0 with
      | error e => simp [encodeInstr, decodeArgs, h, pure, Except.pure, hb, Except.map, Except.bind, Bind.bind]
      | ok b =>
        cases hc : parse_number a1 with
        | error e =>
          simp [encodeInstr, decodeArgs, h, pure, Except.pure, hb, hc, Except.map, Except.bind, Bind.bind]
        | ok c => simp [encodeInstr, decodeArgs, h, pure, Except.pure, hb, hc, Except.map, Except.bind, Bind.bind]
    · simp only [List.length_cons] at hk2
      omega
  · rw [show arities.lookup "BINARY_OP" = some 4 from rfl] at hk
    injection hk with hk2
    rcases args with _ | ⟨a0, _ | ⟨a1, _ | ⟨a2, _ | ⟨a3, _ | ⟨a4, rest⟩⟩⟩⟩⟩
    · simp at hk2
    · simp at hk2
    · simp at hk2
    · simp at hk2
    · cases hb : parse_number a0 with
      | error e => simp [encodeInstr, decodeArgs, h, pure, Except.pure, hb, Except.map, Except.bind, Bind.bind]
      | ok b =>
        cases hc : parse_number a1 with
        | error e =>
          simp [encodeInstr, decodeArgs, h, pure, Except.pure, hb, hc, Except.map, Except.bind, Bind.bind]
        | ok c =>
          cases hd : parse_number a2 with
          | error e =>
            simp [encodeInstr, decodeArgs, h, pure, Except.pure, hb, hc, hd, Except.map, Except.bind, Bind.bind]
          | ok d =>
            cases he : parse_number a3 with
            | error e =>
              simp [encodeInstr, decodeArgs, h, pure, Except.pure, hb, hc, hd, he, Except.map, Except.bind,
                Bind.bind]
            | ok e =>
              simp [encodeInstr, decodeArgs, h, pure, Except.pure, hb, hc, hd, he, Except.map, Except.bind,
                Bind.bind]
    · simp only [List.length_cons] at hk2
      omega

theorem encodeInstr_cases (m : String) (args : List String) :
    encodeInstr m args = .error (.unknownMnemonic m) ∨
    encodeInstr m args = .error (.arityMismatch m) ∨
    ∃ op, mnemonics.lookup m = some op ∧ arities.lookup m = some args.length ∧
      encodeInstr m args =
        (decodeArgs args).map (fun vs => ("A", op) :: List.zip ["B", "C", "D", "E"] vs) := by
  cases h : mnemonics.lookup m with
  | none => exact Or.inl (encodeInstr_of_none args h)
  | some op =>
    cases hk : arities.lookup m with
    | none =>
      exfalso
      rcases mnemonics_lookup_cases h with ⟨rfl, -⟩ | ⟨rfl, -⟩ | ⟨rfl, -⟩
      · rw [show arities.lookup "LOAD_CONST" = some 2 from rfl] at hk
        exact Option.noConfusion hk
      · rw [show arities.lookup "STORE" = some 2 from rfl] at hk
        exact Option.noConfusion hk
      · rw [show arities.lookup "BINARY_OP" = some 4 from rfl] at hk
        exact Option.noConfusion hk
    | some k =>
      by_cases hl : args.length = k
      · subst hl
        exact Or.inr (Or.inr ⟨op, rfl, rfl, encodeInstr_decode h hk⟩)
      · exact Or.inr (Or.inl (encodeInstr_arity_err h hk hl))

/-! ### Error classification -/

theorem parse_number_not_syn (s : String) (n : Nat) (l : List Char) :
    parse_number s ≠ .error (.synError n l) := by
  simp only [parse_number]
  split
  · split <;> simp
  · split <;> simp

theorem decodeArgs_length {args : List String} {vs : List Int}
    (h : decodeArgs args = .ok vs) : vs.length = args.length := by
  induction args generalizing vs with
  | nil =>
    simp only [decodeArgs] at h
    cases h
    rfl
  | cons a rest ih =>
    simp only [decodeArgs] at h
    cases ha : parse_number a with
    | error e => rw [ha] at h; cases h
    | ok v =>
      rw [ha] at h
      cases hr : decodeArgs rest with
      | error e => rw [hr] at h; cases h
      | ok vs' =>
        rw [hr] at h
        cases h
        simp [ih hr]

theorem decodeArgs_first_error {pre : List String} {bad : String} {rest : List String}
    {e : AsmError} (hpre : ∀ a ∈ pre, ∃ v, parse_number a = .ok v)
    (hbad : parse_number bad = .error e) :
    decodeArgs (pre ++ bad :: rest) = .error e := by
  induction pre with
  | nil => simp [decodeArgs, hbad, Except.bind, Bind.bind]
  | cons a pre ih =>
    obtain ⟨v, hv⟩ := hpre a (by simp)
    have h2 := ih (fun a' ha' => hpre a' (by simp [ha']))
    simp [decodeArgs, hv, h2, Except.bind, Bind.bind]

theorem decodeArgs_not_syn (args : List String) (n : Nat) (l : List Char) :
    decodeArgs args ≠ .error (.synError n l) := by
  induction args with
  | nil => simp [decodeArgs]
  | cons a rest ih =>
    intro h
    simp only [decodeArgs] at h
    cases ha : parse_number a with
    | error e =>
      rw [ha] at h
      cases h
      exact parse_number_not_syn a n l ha
    | ok v =>
      rw [ha] at h
      cases hr : decodeArgs rest with
      | error e =>
        rw [hr] at h
        cases h
        exact ih hr
      | ok vs => rw [hr] at h; cases h

theorem encodeInstr_not_syn (m : String) (args : List String) (n : Nat) (l : List Char) :
    encodeInstr m args ≠ .error (.synError n l) := by
  rcases encodeInstr_cases m args with h | h | ⟨op, -, -, h⟩ <;> rw [h]
  · simp
  · simp
  · cases hd : decodeArgs args with
    | ok vs => simp [Except.map]
    | error e =>
      intro hEq
      simp only [Except.map] at hEq
      cases hEq
      exact decodeArgs_not_syn args n l hd

theorem encodeAll_ok_mem {cmds : List (String × List String)} {recs : List IRRec}
    (h : encodeAll cmds = .ok recs) :
    ∀ r ∈ recs, ∃ m args, encodeInstr m args = .ok r := by
  induction cmds generalizing recs with
  | nil =>
    simp only [encodeAll] at h
    cases h
    simp
  | cons cmd rest ih =>
    obtain ⟨m, args⟩ := cmd
    simp only [encodeAll] at h
    cases h1 : encodeInstr m args with
    | error e => rw [h1] at h; cases h
    | ok r0 =>
      rw [h1] at h
      cases h2 : encodeAll rest with
      | error e => rw [h2] at h; cases h
      | ok rs =>
        rw [h2] at h
        cases h
        intro r hr
        rcases List.mem_cons.mp hr with rfl | hr'
        · exact ⟨m, args, h1⟩
        · exact ih h2 r hr'

theorem encodeAll_first_error {pre : List (String × List String)}
    {bad : String × List String} {rest : List (String × List String)} {e : AsmError}
    (hpre : ∀ p ∈ pre, ∃ r, encodeInstr p.1 p.2 = .ok r)
    (hbad : encodeInstr bad.1 bad.2 = .error e) :
    encodeAll (pre ++ bad :: rest) = .error e := by
  induction pre with
  | nil =>
    obtain ⟨m, args⟩ := bad
    simp only [List.nil_append, encodeAll]
    rw [show encodeInstr m args = .error e from hbad]
    rfl
  | cons p pre ih =>
    obtain ⟨m, args⟩ := p
    obtain ⟨r, hr⟩ := hpre (m, args) (by simp)
    have h2 := ih (fun p' hp' => hpre p' (by simp [hp']))
    simp only [List.cons_append, encodeAll, List.append_eq]
    rw [hr, h2]
    rfl

theorem encodeAll_not_syn (cmds : List (String × List String)) (n : Nat) (l : List Char) :
    encodeAll cmds ≠ .error (.synError n l) := by
  induction cmds with
  | nil => simp [encodeAll]
  | cons cmd rest ih =>
    obtain ⟨m, args⟩ := cmd
    intro h
    simp only [encodeAll] at h
    cases h1 : encodeInstr m args with
    | error e =>
      rw [h1] at h
      cases h
      exact encodeInstr_not_syn m args n l h1
    | ok r0 =>
      rw [h1] at h
      cases h2 : encodeAll rest with
      | error e =>
        rw [h2] at h
        cases h
        exact ih h2
      | ok rs => rw [h2] at h; cases h

theorem assemble_not_syn (src : String) (n : Nat) (l : List Char) :
    assemble src ≠ .error (.synError n l) := by
  obtain ⟨cmds, hc⟩ := parse_source_ok src.data
  unfold assemble
  rw [hc]
  exact encodeAll_not_syn cmds n l

/-! ### Invariance under trailing comments; skipped lines -/

theorem takeWhile_append_of_mem_neg {q : Char → Bool} {A : List Char} (X : List Char)
    {x : Char} (hx : x ∈ A) (hqx : q x = false) :
    List.takeWhile q (A ++ X) = List.takeWhile q A := by
  induction A with
  | nil => cases hx
  | cons a A ih =>
    by_cases hqa : q a = true
    · rw [List.cons_append, List.takeWhile_cons_of_pos hqa, List.takeWhile_cons_of_pos hqa]
      have hx' : x ∈ A := by
        rcases List.mem_cons.mp hx with rfl | hx'
        · rw [hqa] at hqx; cases hqx
        · exact hx'
      rw [ih hx']
    · rw [List.cons_append, List.takeWhile_cons_of_neg hqa, List.takeWhile_cons_of_neg hqa]

theorem removeComment_stable {c : Char} {t s2 : List Char} (hc : isSpace c = false)
    (hr : rstrip (c :: t) = c :: t)
    (hs2 : ∀ d ∈ s2, isSpace d = true) :
    removeComment ((c :: t) ++ (s2 ++ (" ; comment").data)) = removeComment (c :: t) := by
  by_cases hmem : ';' ∈ c :: t
  · have hcl : ((c :: t) ++ (s2 ++ (" ; comment").data)).contains ';' = true :=
      List.elem_iff.mpr (List.mem_append.mpr (Or.inl hmem))
    have hcr : (c :: t).contains ';' = true := List.elem_iff.mpr hmem
    unfold removeComment
    rw [hcl, hcr, if_pos rfl, if_pos rfl,
      takeWhile_append_of_mem_neg (s2 ++ (" ; comment").data) hmem (by simp)]
  · have hAq : ∀ d ∈ c :: t, (d != ';') = true := by
      intro d hd
      simp only [bne_iff_ne]
      intro hdeq
      exact hmem (hdeq ▸ hd)
    have hs2q : ∀ d ∈ s2, (d != ';') = true := by
      intro d hd
      simp only [bne_iff_ne]
      intro hdeq
      have hsd := hs2 d hd
      rw [hdeq] at hsd
      exact absurd hsd (by decide)
    have hcl : ((c :: t) ++ (s2 ++ (" ; comment").data)).contains ';' = true :=
      List.elem_iff.mpr
        (List.mem_append.mpr (Or.inr (List.mem_append.mpr (Or.inr (by decide)))))
    have hcr : (c :: t).contains ';' = false := by
      rw [Bool.eq_false_iff]
      intro hx
      exact hmem (List.elem_iff.mp hx)
    unfold removeComment
    rw [hcl, hcr, if_pos rfl, if_neg (by simp)]
    rw [List.takeWhile_append_of_pos hAq, List.takeWhile_append_of_pos hs2q]
    rw [show List.takeWhile (fun ch => ch != ';') (" ; comment").data = [' '] from rfl]
    have hsp : ∀ d ∈ s2 ++ [' '], isSpace d = true := by
      intro d hd
      rcases List.mem_append.mp hd with h1 | h1
      · exact hs2 d h1
      · simp only [List.mem_singleton] at h1
        subst h1
        rfl
    have hl : lstrip ((c :: t) ++ (s2 ++ [' '])) = (c :: t) ++ (s2 ++ [' ']) := by
      show List.dropWhile isSpace (c :: (t ++ (s2 ++ [' ']))) = _
      rw [List.dropWhile_cons_of_neg (by simp [hc])]
      rfl
    show rstrip (lstrip ((c :: t) ++ (s2 ++ [' ']))) = c :: t
    rw [hl, rstrip_append_space hsp, hr]

theorem parse_line_append_comment (l : List Char) :
    parse_line (l ++ (" ; comment").data) = parse_line l := by
  cases hA : stripChars l with
  | nil =>
    have hall : ∀ c ∈ l, isSpace c = true := stripChars_eq_nil_all_space hA
    have h1 : stripChars (l ++ (" ; comment").data) = stripChars (" ; comment").data :=
      stripChars_space_prepend hall
    unfold parse_line
    rw [hA, h1, show stripChars (" ; comment").data = ("; comment").data from rfl]
    rfl
  | cons c t =>
    have hc : isSpace c = false := stripChars_head_not_space hA
    obtain ⟨s2, hls, hs2⟩ := rstrip_cons_decomp (x := lstrip l) hA
    have hlsne : lstrip l ≠ [] := by rw [hls]; simp
    have hr : rstrip (c :: t) = c :: t := by
      conv_lhs => rw [show (c :: t) = stripChars l from hA.symm]
      show rstrip (rstrip (lstrip l)) = c :: t
      rw [rstrip_idem]
      exact hA
    have hstrip : stripChars (l ++ (" ; comment").data) =
        c :: ((t ++ s2) ++ (" ; comment").data) := by
      show rstrip (lstrip (l ++ (" ; comment").data)) = _
      rw [lstrip_append_of_ne_nil (" ; comment").data hlsne, hls]
      exact rstrip_append_keep rfl (by decide)
    unfold parse_line
    rw [hA, hstrip]
    show (if c == ';' then LineResult.skip
          else mkInstr (c :: ((t ++ s2) ++ (" ; comment").data)))
        = (if c == ';' then LineResult.skip else mkInstr (c :: t))
    by_cases hsemi : c = ';'
    · simp [hsemi]
    · have hb : (c == ';') = false := beq_false_of_ne hsemi
      rw [hb]
      simp only [Bool.false_eq_true, if_false]
      unfold mkInstr
      rw [show c :: ((t ++ s2) ++ (" ; comment").data)
            = (c :: t) ++ (s2 ++ (" ; comment").data) by simp,
        removeComment_stable hc hr hs2]

theorem parse_line_skip {line : List Char}
    (h : stripChars line = [] ∨ (stripChars line).head? = some ';') :
    parse_line line = .skip := by
  unfold parse_line
  rcases h with h | h
  · rw [h]
  · cases hA : stripChars line with
    | nil => rfl
    | cons c rest =>
      rw [hA] at h
      simp only [List.head?_cons, Option.some.injEq] at h
      subst h
      rfl

theorem parse_sourceAux_all_skip {ls : List (List Char)} (k : Nat)
    (h : ∀ l ∈ ls, parse_line l = .skip) : parse_sourceAux k ls = .ok [] := by
  induction ls generalizing k with
  | nil => rfl
  | cons line rest ih =>
    have h1 := h line (by simp)
    simp only [parse_sourceAux, h1]
    exact ih (k + 1) (fun l hl => h l (by simp [hl]))

theorem assemble_all_comment {src : String}
    (h : ∀ l ∈ splitOn '\n' src.data,
      stripChars l = [] ∨ (stripChars l).head? = some ';') :
    assemble src = .ok [] := by
  unfold assemble parse_source
  rw [parse_sourceAux_all_skip 1 (fun l hl => parse_line_skip (h l hl))]
  rfl

/-! ### Helper shape lemmas for records -/

theorem list_length_eq_two {α : Type} {l : List α} (h : l.length = 2) :
    ∃ a b, l = [a, b] := by
  rcases l with _ | ⟨a, _ | ⟨b, _ | ⟨c, t⟩⟩⟩ <;> simp at h
  exact ⟨a, b, rfl⟩

theorem list_length_eq_four {α : Type} {l : List α} (h : l.length = 4) :
    ∃ a b c d, l = [a, b, c, d] := by
  rcases l with _ | ⟨a, _ | ⟨b, _ | ⟨c, _ | ⟨d, _ | ⟨e, t⟩⟩⟩⟩⟩ <;> simp at h
  exact ⟨a, b, c, d, rfl⟩

/-! ### Claim theorems -/

/-- C1: translating the three minimal well-formed example instructions yields
exactly the stated records (`LOAD_CONST 811, 213` → `{A:20,B:811,C:213}`,
`STORE 709, 447` → `{A:12,B:709,C:447}`, `BINARY_OP 132, 412, 20, 585` →
`{A:19,B:132,C:412,D:20,E:585}`), and in general field `A` of any successfully
encoded record equals the mnemonic table's opcode while the remaining fields
are the decoded arguments in declared order. -/
theorem claim1_record_shapes :
    assemble "LOAD_CONST 811, 213" = .ok [[("A", 20), ("B", 811), ("C", 213)]]
    ∧ assemble "STORE 709, 447" = .ok [[("A", 12), ("B", 709), ("C", 447)]]
    ∧ assemble "BINARY_OP 132, 412, 20, 585" =
        .ok [[("A", 19), ("B", 132), ("C", 412), ("D", 20), ("E", 585)]]
    ∧ ∀ m args r, encodeInstr m args = .ok r →
        ∃ op vs, mnemonics.lookup m = some op ∧ decodeArgs args = .ok vs ∧
          r = ("A", op) :: List.zip ["B", "C", "D", "E"] vs := by
  refine ⟨rfl, rfl, rfl, ?_⟩
  intro m args r h
  rcases encodeInstr_cases m args with hcase | hcase | ⟨op, hop, hk, hcase⟩
  · rw [h] at hcase; cases hcase
  · rw [h] at hcase; cases hcase
  · rw [h] at hcase
    cases hd : decodeArgs args with
    | error e => rw [hd] at hcase; simp [Except.map] at hcase
    | ok vs =>
      rw [hd] at hcase
      simp only [Except.map] at hcase
      exact ⟨op, vs, hop, rfl, Except.ok.inj hcase⟩

/-- C1 witness: the general part of `claim1_record_shapes` applied to the
concrete instruction `STORE 709, 447`. -/
theorem claim1_record_shapes_witness :
    ∃ op vs, mnemonics.lookup "STORE" = some op
      ∧ decodeArgs ["709", "447"] = .ok vs
      ∧ [(("A" : String), (12 : Int)), ("B", 709), ("C", 447)]
          = ("A", op) :: List.zip ["B", "C", "D", "E"] vs :=
  claim1_record_shapes.2.2.2 "STORE" ["709", "447"]
    [("A", 12), ("B", 709), ("C", 447)] rfl

/-- C2: every record of a successful translation comes from `encodeInstr`, and
every successfully encoded record has `A` equal to the table's opcode for its
instruction, with the key set fully determined by that opcode: `{A,B,C}` for
opcodes 20 and 12, `{A,B,C,D,E}` for opcode 19. -/
theorem claim2_field_invariant :
    (∀ m args r, encodeInstr m args = .ok r →
      ∃ op, mnemonics.lookup m = some op ∧ r.lookup "A" = some op ∧
        (((op = 20 ∨ op = 12) ∧ r.map Prod.fst = ["A", "B", "C"]) ∨
          (op = 19 ∧ r.map Prod.fst = ["A", "B", "C", "D", "E"])))
    ∧ ∀ src recs, assemble src = .ok recs →
        ∀ r ∈ recs, ∃ m args, encodeInstr m args = .ok r := by
  constructor
  · intro m args r h
    rcases encodeInstr_cases m args with hcase | hcase | ⟨op, hop, hk, hcase⟩
    · rw [h] at hcase; cases hcase
    · rw [h] at hcase; cases hcase
    · rw [h] at hcase
      cases hd : decodeArgs args with
      | error e => rw [hd] at hcase; simp [Except.map] at hcase
      | ok vs =>
        rw [hd] at hcase
        simp only [Except.map] at hcase
        have hrv := Except.ok.inj hcase
        have hlen : vs.length = args.length := decodeArgs_length hd
        rcases mnemonics_lookup_cases hop with ⟨rfl, rfl⟩ | ⟨rfl, rfl⟩ | ⟨rfl, rfl⟩
        · rw [show arities.lookup "LOAD_CONST" = some 2 from rfl] at hk
          injection hk with hk2
          obtain ⟨b, c', rfl⟩ := list_length_eq_two (by rw [hlen, ← hk2])
          subst hrv
          exact ⟨20, hop, rfl, Or.inl ⟨Or.inl rfl, rfl⟩⟩
        · rw [show arities.lookup "STORE" = some 2 from rfl] at hk
          injection hk with hk2
          obtain ⟨b, c', rfl⟩ := list_length_eq_two (by rw [hlen, ← hk2])
          subst hrv
          exact ⟨12, hop, rfl, Or.inl ⟨Or.inr rfl, rfl⟩⟩
        · rw [show arities.lookup "BINARY_OP" = some 4 from rfl] at hk
          injection hk with hk2
          obtain ⟨b, c', d, e', rfl⟩ := list_length_eq_four (by rw [hlen, ← hk2])
          subst hrv
          exact ⟨19, hop, rfl, Or.inr ⟨rfl, rfl⟩⟩
  · intro src recs h r hr
    unfold assemble at h
    cases hps : parse_source src.data with
    | error e => rw [hps] at h; cases h
    | ok cmds =>
      rw [hps] at h
      exact encodeAll_ok_mem h r hr

/-- C2 witness: the invariant of `claim2_field_invariant` evaluated on the
concrete encoding of `BINARY_OP 1, 2, 3, 4`. -/
theorem claim2_field_invariant_witness :
    ∃ op, mnemonics.lookup "BINARY_OP" = some op
      ∧ ([(("A" : String), (19 : Int)), ("B", 1), ("C", 2), ("D", 3), ("E", 4)]).lookup "A"
          = some op
      ∧ (((op = 20 ∨ op = 12) ∧
            ([(("A" : String), (19 : Int)), ("B", 1), ("C", 2), ("D", 3), ("E", 4)]).map
              Prod.fst = ["A", "B", "C"]) ∨
          (op = 19 ∧
            ([(("A" : String), (19 : Int)), ("B", 1), ("C", 2), ("D", 3), ("E", 4)]).map
              Prod.fst = ["A", "B", "C", "D", "E"])) :=
  claim2_field_invariant.1 "BINARY_OP" ["1", "2", "3", "4"]
    [("A", 19), ("B", 1), ("C", 2), ("D", 3), ("E", 4)] rfl

/-- C3: validation priority — an unknown mnemonic is reported before any arity
or number check; a known mnemonic with the wrong argument count is reported
before any argument is decoded (in particular `LOAD_CONST abc` yields the
arity error, not `InvalidNumber`); with correct arity the instruction encodes
by decoding arguments left-to-right, and the first ill-formed argument is the
one reported. -/
theorem claim3_error_priority :
    (∀ m args, mnemonics.lookup m = none →
      encodeInstr m args = .error (.unknownMnemonic m))
    ∧ (∀ m op k args, mnemonics.lookup m = some op → arities.lookup m = some k →
        args.length ≠ k → encodeInstr m args = .error (.arityMismatch m))
    ∧ assemble "LOAD_CONST abc" = .error (.arityMismatch "LOAD_CONST")
    ∧ (∀ m op args, mnemonics.lookup m = some op →
        arities.lookup m = some args.length →
        encodeInstr m args =
          (decodeArgs args).map (fun vs => ("A", op) :: List.zip ["B", "C", "D", "E"] vs))
    ∧ (∀ pre bad rest e, (∀ a ∈ pre, ∃ v, parse_number a = .ok v) →
        parse_number bad = .error e → decodeArgs (pre ++ bad :: rest) = .error e) :=
  ⟨fun _ args h => encodeInstr_of_none args h,
    fun _ _ _ _ h hk hlen => encodeInstr_arity_err h hk hlen,
    rfl,
    fun _ _ _ h hk => encodeInstr_decode h hk,
    fun _ _ _ _ h1 h2 => decodeArgs_first_error h1 h2⟩

/-- C3 witness: the three priority rules of `claim3_error_priority` applied at
concrete inputs: `JUMP 1` (unknown mnemonic), `STORE 1` (arity before number
decoding), and the argument list `1, abc, 2` (first bad argument reported). -/
theorem claim3_error_priority_witness :
    encodeInstr "JUMP" ["1"] = .error (.unknownMnemonic "JUMP")
    ∧ encodeInstr "STORE" ["1"] = .error (.arityMismatch "STORE")
    ∧ decodeArgs ["1", "abc", "2"] = .error (.invalidNumber "abc") :=
  ⟨claim3_error_priority.1 "JUMP" ["1"] rfl,
    claim3_error_priority.2.1 "STORE" 12 2 ["1"] rfl rfl (by decide),
    claim3_error_priority.2.2.2.2 ["1"] "abc" ["2"] (.invalidNumber "abc")
      (by
        intro a ha
        simp only [List.mem_singleton] at ha
        subst ha
        exact ⟨1, rfl⟩)
      rfl⟩

/-- C4 counterexample: the claim asserts that `0x-5` and `0x1_0` fail with
`InvalidNumber`; in fact Python's `int(s, 16)` accepts a sign and underscore
separators after the prefix is removed, so both decode successfully. -/
theorem claim4_cex :
    parse_number "0x-5" = .ok (-5) ∧ parse_number "0x1_0" = .ok 16 := ⟨rfl, rfl⟩

/-- C4 (amended): a case-sensitive `0x` prefix selects hexadecimal decoding of
the text after the prefix with Python `int(·, 16)` semantics — which accepts a
sign and underscore separators (`0x-5` → -5, `0x1_0` → 16) — while any other
string is decoded as a signed base-10 integer, so `0X10` (uppercase X) fails;
`LOAD_CONST 0x10, 5` decodes to `B = 16`. -/
theorem claim4_number_decoding :
    assemble "LOAD_CONST 0x10, 5" = .ok [[("A", 20), ("B", 16), ("C", 5)]]
    ∧ parse_number "0X10" = .error (.invalidNumber "0X10")
    ∧ parse_number "0x-5" = .ok (-5)
    ∧ parse_number "0x+5" = .ok 5
    ∧ parse_number "0x1_0" = .ok 16
    ∧ parse_number "0x10" = .ok 16
    ∧ parse_number "811" = .ok 811
    ∧ parse_number "-42" = .ok (-42)
    ∧ parse_number "1_0" = .ok 10
    ∧ parse_number "" = .error (.invalidNumber "")
    ∧ parse_number "abc" = .error (.invalidNumber "abc")
    ∧ parse_number "0x" = .error (.invalidNumber "") :=
  ⟨rfl, rfl, rfl, rfl, rfl, rfl, rfl, rfl, rfl, rfl, rfl, rfl⟩

/-- C5: if the parsed instruction sequence contains a first invalid
instruction, the whole translation fails with exactly that instruction's
error: no record list is returned and later instructions are irrelevant. -/
theorem claim5_fail_fast : ∀ (src : String) pre bad rest e,
    parse_source src.data = .ok (pre ++ bad :: rest) →
    (∀ p ∈ pre, ∃ r, encodeInstr p.1 p.2 = .ok r) →
    encodeInstr bad.1 bad.2 = .error e →
    assemble src = .error e := by
  intro src pre bad rest e hps hpre hbad
  unfold assemble
  rw [hps]
  exact encodeAll_first_error hpre hbad

/-- C5 witness: a three-line source whose second line is invalid fails with
the unknown-mnemonic error of that line; the valid third line is never
encoded and no partial output is produced. -/
theorem claim5_fail_fast_witness :
    assemble "STORE 1, 2\nJUMP 1\nSTORE 9, 9" = .error (.unknownMnemonic "JUMP") :=
  claim5_fail_fast _ [("STORE", ["1", "2"])] ("JUMP", ["1"]) [("STORE", ["9", "9"])] _
    rfl
    (by
      intro p hp
      simp only [List.mem_singleton] at hp
      subst hp
      exact ⟨[("A", 12), ("B", 1), ("C", 2)], rfl⟩)
    rfl

/-- C6 counterexample: the claim asserts the arity error carries the actual
argument count supplied; but `STORE 1` (1 argument) and `STORE 1, 2, 3`
(3 arguments) produce the identical error value — the Python message is a
constant string per mnemonic, so the actual count is not carried. -/
theorem claim6_cex :
    assemble "STORE 1" = .error (.arityMismatch "STORE")
    ∧ assemble "STORE 1, 2, 3" = .error (.arityMismatch "STORE") := ⟨rfl, rfl⟩

/-- C6 (amended): on an arity mismatch the error carries the mnemonic (and,
through the fixed per-mnemonic message, the expected count), but not the
actual count supplied: the error value depends only on the mnemonic. -/
theorem claim6_arity_error_payload : ∀ m op k args,
    mnemonics.lookup m = some op → arities.lookup m = some k → args.length ≠ k →
    encodeInstr m args = .error (.arityMismatch m) :=
  fun _ _ _ _ h hk hl => encodeInstr_arity_err h hk hl

/-- C6 witness: `claim6_arity_error_payload` applied to `BINARY_OP` with three
arguments. -/
theorem claim6_arity_error_payload_witness :
    encodeInstr "BINARY_OP" ["1", "2", "3"] = .error (.arityMismatch "BINARY_OP") :=
  claim6_arity_error_payload "BINARY_OP" 19 4 ["1", "2", "3"] rfl rfl (by decide)

/-- C7 counterexample: the claim asserts `STORE 1, 2,` (trailing comma)
translates successfully; in fact the trailing comma yields an extra empty
argument, so the line fails with the arity error. -/
theorem claim7_cex :
    assemble "STORE 1, 2," = .error (.arityMismatch "STORE") := rfl

/-- C7 (amended): embedded extra whitespace inside the comma-separated
argument list is silently accepted (`STORE 1 ,  2` → `{A:12,B:1,C:2}`), but a
trailing comma produces an extra empty argument and the line is rejected with
`ArityMismatch` rather than translating successfully. -/
theorem claim7_arglist_whitespace :
    assemble "STORE 1 ,  2" = .ok [[("A", 12), ("B", 1), ("C", 2)]]
    ∧ assemble "STORE 1, 2," = .error (.arityMismatch "STORE")
    ∧ assemble "LOAD_CONST 1, 2," = .error (.arityMismatch "LOAD_CONST")
    ∧ assemble "BINARY_OP 1, 2, 3, 4," = .error (.arityMismatch "BINARY_OP") :=
  ⟨rfl, rfl, rfl, rfl⟩

/-- C8: appending `" ; comment"` to any line leaves its parse unchanged;
translation is invariant under the mnemonic's case (shown on all three
mnemonics); and a blank line or one whose first non-blank character is `;`
contributes no instruction to the parse. -/
theorem claim8_invariance :
    (∀ line : List Char, parse_line (line ++ (" ; comment").data) = parse_line line)
    ∧ assemble "STORE 1, 2 ; comment" = assemble "STORE 1, 2"
    ∧ assemble "load_const 1, 2" = assemble "LOAD_CONST 1, 2"
    ∧ assemble "Store 1, 2" = assemble "STORE 1, 2"
    ∧ assemble "bInArY_oP 1, 2, 3, 4" = assemble "BINARY_OP 1, 2, 3, 4"
    ∧ (∀ (line : List Char) (rest : List (List Char)) (k : Nat),
        stripChars line = [] ∨ (stripChars line).head? = some ';' →
        parse_sourceAux k (line :: rest) = parse_sourceAux (k + 1) rest) := by
  refine ⟨parse_line_append_comment, rfl, rfl, rfl, rfl, ?_⟩
  intro line rest k h
  simp only [parse_sourceAux, parse_line_skip h]

/-- C8 witness: comment-append invariance at the concrete line `STORE 7, 8`,
and skipping of a concrete comment line inside a source. -/
theorem claim8_invariance_witness :
    parse_line (("STORE 7, 8").data ++ (" ; comment").data)
        = parse_line ("STORE 7, 8").data
    ∧ parse_sourceAux 1 (("; note").data :: [("STORE 1, 2").data])
        = parse_sourceAux 2 [("STORE 1, 2").data] :=
  ⟨claim8_invariance.1 ("STORE 7, 8").data,
    claim8_invariance.2.2.2.2.2 ("; note").data [("STORE 1, 2").data] 1 (Or.inr rfl)⟩

/-- C9: translation is deterministic (the embedding is a pure function — the
only instance state of `UVMAssembler`, the mnemonic table, is written once in
`__init__` and never assigned afterwards, so two calls on the same or distinct
instances agree), and an empty or all-comment source yields the empty record
sequence, not an error. -/
theorem claim9_determinism :
    (∀ src : String, assemble src = assemble src)
    ∧ assemble "" = .ok []
    ∧ (∀ src : String,
        (∀ l ∈ splitOn '\n' src.data,
          stripChars l = [] ∨ (stripChars l).head? = some ';') →
        assemble src = .ok []) :=
  ⟨fun _ => rfl, rfl, fun _ h => assemble_all_comment h⟩

/-- C9 witness: a concrete all-comment/blank source translates to the empty
record sequence via `claim9_determinism`. -/
theorem claim9_determinism_witness :
    assemble "; header\n   \n\t; note" = .ok [] :=
  claim9_determinism.2.2 "; header\n   \n\t; note" (by decide)

/-- C10: the line splitter is total — `parse_line` never reaches the crash
branch on any input, so `parse_source` always succeeds and translation never
fails with the `SyntaxError` that would carry a 1-based line number and the
raw line text. -/
theorem claim10_parse_total :
    (∀ line : List Char, parse_line line ≠ .crash)
    ∧ (∀ src : List Char, ∃ cmds, parse_source src = .ok cmds)
    ∧ (∀ (src : String) (n : Nat) (l : List Char),
        assemble src ≠ .error (.synError n l)) :=
  ⟨parse_line_ne_crash, parse_source_ok, assemble_not_syn⟩

/-- C10 witness: `parse_source` succeeds on a concrete two-line source, by
`claim10_parse_total`. -/
theorem claim10_parse_total_witness :
    ∃ cmds, parse_source ("LOAD_CONST 1, 2\n; c").data = .ok cmds :=
  claim10_parse_total.2.1 ("LOAD_CONST 1, 2\n; c").data

end UVM
